import Mathlib

/-
Verification of the MemoryManager repository (MemoryManager.cpp / MemoryManager.h).

The C++ class is shallowly embedded: the deque of regions becomes a list,
the unordered_map allocation table becomes an association list with unique
keys, pointers into the arena become natural-number byte offsets from the
arena base (the C++ null pointer is modelled by Option.none, since the
arena base itself is never null once allocated), and the two placement
strategies become pure functions on free-region snapshots.
-/

namespace MemSim

/-- Region mirrors MemoryManager.h struct Region: a position in words, an
extent in words and an availability flag (available = true means free). -/
structure Region where
  position : Nat
  extent : Nat
  available : Bool
deriving DecidableEq

/-- Strategy enumerates the two placement strategies shipped with the
repository, bestFit and worstFit, stored in the selector field. -/
inductive Strategy where
  | best : Strategy
  | worst : Strategy
deriving DecidableEq

/-- MMState mirrors the private state of the MemoryManager class:
unit_size is the word size in bytes, arenaLive records whether
storage_area is non-null, total_capacity is the capacity in words,
memory_regions is the deque of regions in deque order, and
allocation_table maps byte offsets of issued addresses (relative to the
arena base) to the requested byte sizes. -/
structure MMState where
  unit_size : Nat
  strategy : Strategy
  arenaLive : Bool
  total_capacity : Nat
  memory_regions : List Region
  allocation_table : List (Nat × Nat)
deriving DecidableEq

/-- convert_to_words mirrors MemoryManager::convert_to_words:
ceiling division of a byte count by the word size, computed exactly as in
the source as (bytes + unit_size - 1) / unit_size over naturals (the C++
size_t arithmetic never overflows for the argument ranges considered). -/
def convert_to_words (unit_size bytes : Nat) : Nat :=
  (bytes + unit_size - 1) / unit_size

/-- pickMinWaste is the std::min_element pass of bestFit: it scans the
qualified holes keeping the first hole of minimal waste, replacing the
current winner only under strict less-than on waste. -/
def pickMinWaste (sizeInWords : Nat) (acc : Nat × Nat) (t : List (Nat × Nat)) : Nat × Nat :=
  t.foldl
    (fun best cur =>
      if cur.2 - sizeInWords < best.2 - sizeInWords then cur else best)
    acc

/-- bestFit mirrors the free function bestFit in MemoryManager.cpp: it
filters the holes that can hold the request, then takes the first hole of
minimal waste (std::min_element keeps the first minimum under strict
less-than on waste), returning its position, or -1 when no hole
qualifies (this also covers the empty snapshot). -/
def bestFit (sizeInWords : Nat) (holes : List (Nat × Nat)) : Int :=
  match holes.filter (fun h => sizeInWords ≤ h.2) with
  | [] => -1
  | h :: t => Int.ofNat (pickMinWaste sizeInWords h t).1

/-- pickMaxGap is the scanning loop of worstFit: it keeps the position
and size of the largest qualifying hole seen so far, replacing the
current winner only under strict greater-than on extent. -/
def pickMaxGap (sizeInWords : Nat) (acc : Int × Nat) (t : List (Nat × Nat)) : Int × Nat :=
  t.foldl
    (fun a cur =>
      if sizeInWords ≤ cur.2 ∧ a.2 < cur.2 then (Int.ofNat cur.1, cur.2) else a)
    acc

/-- worstFit mirrors the free function worstFit in MemoryManager.cpp: a
single pass keeping the largest qualifying hole, replacing the current
winner only under strict greater-than on extent, starting from the
sentinel position -1 with gap 0. -/
def worstFit (sizeInWords : Nat) (holes : List (Nat × Nat)) : Int :=
  (pickMaxGap sizeInWords ((-1 : Int), 0) holes).1

/-- applyStrategy dispatches the stored selector to bestFit or worstFit. -/
def applyStrategy : Strategy → Nat → List (Nat × Nat) → Int
  | Strategy.best, w, holes => bestFit w holes
  | Strategy.worst, w, holes => worstFit w holes

/-- insertPairLe inserts a pair into a list sorted by the lexicographic
order on (position, extent), the order std::sort uses on
std::pair of size_t. -/
def insertPairLe (p : Nat × Nat) : List (Nat × Nat) → List (Nat × Nat)
  | [] => [p]
  | q :: rest =>
      if p.1 < q.1 ∨ (p.1 = q.1 ∧ p.2 ≤ q.2) then p :: q :: rest
      else q :: insertPairLe p rest

/-- sortPairs is insertion sort under the lexicographic order on pairs,
modelling the std::sort call in MemoryManager::getList. -/
def sortPairs : List (Nat × Nat) → List (Nat × Nat)
  | [] => []
  | p :: rest => insertPairLe p (sortPairs rest)

/-- freePairs collects the (position, extent) pairs of the available
regions in deque order, as the loop in MemoryManager::getList does. -/
def freePairs (l : List Region) : List (Nat × Nat) :=
  (l.filter (fun r => r.available)).map (fun r => (r.position, r.extent))

/-- getList mirrors MemoryManager::getList: the free regions are
collected, sorted by (position, extent), and written into an array of
uint16_t entries, which truncates every field modulo 2 ^ 16. -/
def getList (s : MMState) : List (Nat × Nat) :=
  (sortPairs (freePairs s.memory_regions)).map
    (fun p => (p.1 % 65536, p.2 % 65536))

/-- findRegionIdx mirrors std::find_if over the region deque, returning
the index of the first region satisfying the predicate. -/
def findRegionIdx (p : Region → Bool) : List Region → Option Nat
  | [] => none
  | r :: rest => if p r then some 0 else (findRegionIdx p rest).map (fun i => i + 1)

/-- findRegion mirrors std::find_if over the region deque, returning
the position of the iterator as an index together with the region it
points at. -/
def findRegion (p : Region → Bool) : List Region → Option (Nat × Region)
  | [] => none
  | r :: rest => if p r then some (0, r) else (findRegion p rest).map (fun x => (x.1 + 1, x.2))

/-- modifyAt applies a function to the element at a given index of a
list, modelling a write through a deque iterator. -/
def modifyAt (f : Region → Region) : Nat → List Region → List Region
  | _, [] => []
  | 0, r :: rest => f r :: rest
  | i + 1, r :: rest => r :: modifyAt f i rest

/-- tableInsert models unordered_map operator square-bracket assignment:
it replaces the value of an existing key in place or appends a fresh
entry, keeping keys unique. -/
def tableInsert (k v : Nat) : List (Nat × Nat) → List (Nat × Nat)
  | [] => [(k, v)]
  | e :: rest => if e.1 = k then (k, v) :: rest else e :: tableInsert k v rest

/-- tableErase models unordered_map erase of a key. -/
def tableErase (k : Nat) (t : List (Nat × Nat)) : List (Nat × Nat) :=
  t.filter (fun e => e.1 ≠ k)

/-- mergeSweep carries the region under the cursor of the merge loop:
whenever the next entry is also available it is folded into the cursor
region and removed, otherwise the cursor region is emitted and the
cursor advances. -/
def mergeSweep (cur : Region) : List Region → List Region
  | [] => [cur]
  | q :: rest =>
      if cur.available && q.available then
        mergeSweep { position := cur.position, extent := cur.extent + q.extent, available := cur.available } rest
      else
        cur :: mergeSweep q rest

/-- merge_adjacent_regions mirrors MemoryManager::merge_adjacent_regions:
a left-to-right sweep over the deque in deque order; whenever two
consecutive entries are both available, the second extent is folded into
the first and the second entry removed, and the sweep re-examines the
same position. -/
def merge_adjacent_regions : List Region → List Region
  | [] => []
  | r :: rest => mergeSweep r rest

/-- initMem mirrors MemoryManager::initialize (that exact identifier is
avoided for tooling reasons): any prior arena is discarded, a fresh
arena of sizeInWords words is installed, the deque is reset to a single
available region covering everything, and the allocation table is
cleared. -/
def initMem (s : MMState) (sizeInWords : Nat) : MMState :=
  { s with
    arenaLive := true
    total_capacity := sizeInWords
    memory_regions := [{ position := 0, extent := sizeInWords, available := true }]
    allocation_table := [] }

/-- allocate mirrors MemoryManager::allocate: fail when no arena exists;
convert the byte request to words; run the selector on the sorted
free-region snapshot; on a -1 answer fail; locate the first available
region at the chosen offset (failing defensively when absent); if the
region is strictly larger than the request, append the remainder
(position + words, extent - words, available) at the END of the deque
exactly as emplace_back does, and shrink the found region to the
requested word count; mark the found region occupied; record the byte
offset of the returned address in the allocation table. The returned
address is the byte offset chosen * unit_size from the arena base. -/
def allocate (s : MMState) (sizeInBytes : Nat) : MMState × Option Nat :=
  if s.arenaLive = false then (s, none) else
    let w := convert_to_words s.unit_size sizeInBytes
    let chosen := applyStrategy s.strategy w (getList s)
    if chosen = -1 then (s, none) else
      match findRegion (fun r => r.available && r.position == chosen.toNat) s.memory_regions with
      | none => (s, none)
      | some (i, r) =>
          let regs1 :=
            if w < r.extent then
              s.memory_regions ++ [{ position := r.position + w, extent := r.extent - w, available := true }]
            else s.memory_regions
          let regs2 := modifyAt
            (fun q => { position := q.position, extent := if w < r.extent then w else q.extent, available := false })
            i regs1
          let addr := chosen.toNat * s.unit_size
          ({ s with
              memory_regions := regs2
              allocation_table := tableInsert addr sizeInBytes s.allocation_table },
           some addr)

/-- free mirrors MemoryManager::free on an optional byte offset; none
models the C++ null pointer. A null address, an address at or beyond
total_capacity * unit_size bytes (validate_address), or an address
absent from the allocation table returns the state unchanged. Otherwise
the word offset is the byte offset divided by the word size; the first
occupied region at exactly that position is marked available, the table
entry erased and the merge sweep run; when no such region exists the
state is returned unchanged, the table entry included. -/
def free (s : MMState) (address : Option Nat) : MMState :=
  match address with
  | none => s
  | some a =>
    if a < s.total_capacity * s.unit_size then
      match List.lookup a s.allocation_table with
      | none => s
      | some _ =>
        let off := a / s.unit_size
        match findRegionIdx (fun r => r.position == off && r.available == false) s.memory_regions with
        | none => s
        | some i =>
          { s with
            memory_regions :=
              merge_adjacent_regions
                (modifyAt (fun q => { position := q.position, extent := q.extent, available := true }) i s.memory_regions)
            allocation_table := tableErase a s.allocation_table }
    else s

/-- setAllocator mirrors MemoryManager::setAllocator: it swaps the
stored selector. -/
def setAllocator (s : MMState) (st : Strategy) : MMState :=
  { s with strategy := st }

/-- mkMM mirrors the MemoryManager constructor: word size and selector
are stored, the arena is null and the capacity zero. -/
def mkMM (wordSize : Nat) (st : Strategy) : MMState :=
  { unit_size := wordSize
    strategy := st
    arenaLive := false
    total_capacity := 0
    memory_regions := []
    allocation_table := [] }

/-- Op is one facade call: initialization, an allocation of a byte
count, a free of an optional byte offset (none models a null pointer),
or a strategy swap. -/
inductive Op where
  | init : Nat → Op
  | alloc : Nat → Op
  | freeAt : Option Nat → Op
  | setAlloc : Strategy → Op
deriving DecidableEq

/-- step executes one facade call on a state, discarding the returned
address of an allocation. -/
def step (s : MMState) : Op → MMState
  | Op.init n => initMem s n
  | Op.alloc b => (allocate s b).1
  | Op.freeAt a => free s a
  | Op.setAlloc st => setAllocator s st

/-- run executes a list of facade calls from left to right. -/
def run (s : MMState) (ops : List Op) : MMState :=
  ops.foldl step s

/-- dupAddressOps is a call sequence on a word-size-1 manager that ends
with no allocations outstanding yet a stale occupied region: the
out-of-order deque lets a later allocation return byte address 2 while
address 2 is still mapped, overwriting the table entry; freeing
address 2 then frees the earlier region at word offset 2 and strands
the later one as occupied with no table entry, and the final frees
coalesce everything else into the single free region (0,6) alongside
the stranded occupied region (2,1). -/
def dupAddressOps : List Op :=
  [Op.init 7, Op.alloc 2, Op.alloc 2, Op.freeAt (some 0), Op.alloc 1,
   Op.alloc 1, Op.alloc 2, Op.freeAt (some 1), Op.freeAt (some 0),
   Op.setAlloc Strategy.worst, Op.alloc 1, Op.alloc 1, Op.alloc 1,
   Op.freeAt (some 0), Op.freeAt (some 1), Op.freeAt (some 2), Op.freeAt (some 4)]

/-- sumExtents is the total word count covered by a region list. -/
def sumExtents : List Region → Nat
  | [] => 0
  | r :: rest => r.extent + sumExtents rest

/-- contiguousFrom checks that a region list starts at the given
position and that each region starts exactly where the previous one
ends. -/
def contiguousFrom (pos : Nat) : List Region → Bool
  | [] => true
  | r :: rest => (r.position == pos) && contiguousFrom (r.position + r.extent) rest

/-- wellFormedSeq states the spec invariant on the stored sequence
itself: regions in increasing position order with no gaps and no
overlaps, starting at position 0. -/
def wellFormedSeq (l : List Region) : Bool :=
  contiguousFrom 0 l

/-- insertRegionLe inserts a region into a list sorted by position. -/
def insertRegionLe (r : Region) : List Region → List Region
  | [] => [r]
  | q :: rest => if r.position ≤ q.position then r :: q :: rest else q :: insertRegionLe r rest

/-- sortRegions sorts a region list by position. -/
def sortRegions : List Region → List Region
  | [] => []
  | r :: rest => insertRegionLe r (sortRegions rest)

/-- noAdjFreeRun checks that no two consecutive entries of a region list
are both available. -/
def noAdjFreeRun : List Region → Bool
  | [] => true
  | [_] => true
  | r :: q :: rest => !(r.available && q.available) && noAdjFreeRun (q :: rest)

/-- noAdjacentFreePair checks, on the position-sorted view of the
regions, that every adjacent pair has at least one occupied member. -/
def noAdjacentFreePair (l : List Region) : Bool :=
  noAdjFreeRun (sortRegions l)

/-- C1: the claim states that every reachable state keeps the internal
region sequence in increasing position order with no gaps and no
overlaps, starting at 0. The code violates it: with word size 1 and
best fit, after initialize 6, allocate 2 (word 0), allocate 2 (word 2),
free word 0 and allocate 1, the split remainder is appended at the back
of the deque, yielding the sequence (0,1)(2,2)(4,2)(1,1), which is
neither increasing nor contiguous. -/
theorem regions_leave_position_order :
    (run (mkMM 1 Strategy.best)
        [Op.init 6, Op.alloc 2, Op.alloc 2, Op.freeAt (some 0), Op.alloc 1]).memory_regions
      = [⟨0, 1, false⟩, ⟨2, 2, false⟩, ⟨4, 2, true⟩, ⟨1, 1, true⟩]
    ∧ wellFormedSeq
        (run (mkMM 1 Strategy.best)
          [Op.init 6, Op.alloc 2, Op.alloc 2, Op.freeAt (some 0), Op.alloc 1]).memory_regions
      = false := by
  constructor
  · rfl
  · rfl

/-- C2: the claim states that a split inserts the remainder region
immediately after the shrunk region in the region sequence. The code
appends it at the end of the deque instead: allocating 1 word from the
state (0,2,free)(2,2,occ)(4,2,free) shrinks the region at position 0
but places the remainder (1,1,free) after (4,2,free), at index 3 rather
than index 1. -/
theorem split_remainder_appended_at_end :
    (allocate
        (run (mkMM 1 Strategy.best)
          [Op.init 6, Op.alloc 2, Op.alloc 2, Op.freeAt (some 0)]) 1).1.memory_regions
      = [⟨0, 1, false⟩, ⟨2, 2, false⟩, ⟨4, 2, true⟩, ⟨1, 1, true⟩]
    ∧ (allocate
        (run (mkMM 1 Strategy.best)
          [Op.init 6, Op.alloc 2, Op.alloc 2, Op.freeAt (some 0)]) 1).1.memory_regions.get? 1
      = some ⟨2, 2, false⟩ := by
  constructor
  · rfl
  · rfl

/-- C3: the claim states that immediately after any free call, no two
regions adjacent in position order are both free. The code violates it:
with word size 1 and best fit, after initialize 7, allocate 2 (word 0),
allocate 2 (word 2), free word 0, allocate 1 (word 0), allocate 1
(word 1), allocate 2 (word 4) and free word 1 (which merges the
deque-adjacent but position-distant regions (1,1) and (6,1) into
(1,2)), the final free of word 0 returns the sequence
(0,1,free)(2,2,occ)(4,2,occ)(1,2,free), in which the regions at
positions 0 and 1 are adjacent in position order and both free. -/
theorem adjacent_free_pair_after_free :
    (free
        (run (mkMM 1 Strategy.best)
          [Op.init 7, Op.alloc 2, Op.alloc 2, Op.freeAt (some 0), Op.alloc 1,
           Op.alloc 1, Op.alloc 2, Op.freeAt (some 1)]) (some 0)).memory_regions
      = [⟨0, 1, true⟩, ⟨2, 2, false⟩, ⟨4, 2, false⟩, ⟨1, 2, true⟩]
    ∧ noAdjacentFreePair
        (free
          (run (mkMM 1 Strategy.best)
            [Op.init 7, Op.alloc 2, Op.alloc 2, Op.freeAt (some 0), Op.alloc 1,
             Op.alloc 1, Op.alloc 2, Op.freeAt (some 1)]) (some 0)).memory_regions
      = false := by
  constructor
  · rfl
  · rfl

/-- C8 counterexample: the claim states that a zero-byte request is
rounded up to at least one word before reaching the ledger. The
conversion in the code is a plain ceiling division, and at word size 4
a zero-byte request yields zero words, not one. -/
theorem zero_bytes_give_zero_words : ¬ 1 ≤ convert_to_words 4 0 := by
  decide

/-- C8 as amended: the byte-to-word conversion yields at least one word
for every positive byte size and positive word size, but a zero-byte
request converts to zero words; no one-word minimum is enforced for
zero-byte requests. -/
theorem words_positive_iff_bytes_positive (ws n : Nat) (hws : 0 < ws) (hn : 0 < n) :
    1 ≤ convert_to_words ws n ∧ convert_to_words ws 0 = 0 := by
  constructor
  · have h : 1 ≤ (n + ws - 1) / ws ↔ 1 * ws ≤ n + ws - 1 :=
      Nat.le_div_iff_mul_le hws
    rw [convert_to_words]
    omega
  · rw [convert_to_words]
    exact Nat.div_eq_of_lt (by omega)

/-- words_positive_iff_bytes_positive applied at word size 4 and one
requested byte. -/
theorem words_positive_iff_bytes_positive_witness :
    1 ≤ convert_to_words 4 1 ∧ convert_to_words 4 0 = 0 :=
  words_positive_iff_bytes_positive 4 1 (by decide) (by decide)

/-- C9: freeing a null address, an address outside the arena byte
range, or an address absent from the allocation table (a double free
included) returns normally and leaves the entire state, region sequence
and allocation table included, unchanged. -/
theorem invalid_free_noop (s : MMState) (a : Option Nat)
    (h : a = none
      ∨ (∃ x, a = some x ∧ s.total_capacity * s.unit_size ≤ x)
      ∨ (∃ x, a = some x ∧ List.lookup x s.allocation_table = none)) :
    free s a = s := by
  rcases h with rfl | ⟨x, rfl, hx⟩ | ⟨x, rfl, hx⟩
  · rfl
  · have hnlt : ¬ x < s.total_capacity * s.unit_size := by omega
    simp [free, hnlt]
  · by_cases hlt : x < s.total_capacity * s.unit_size
    · simp [free, hlt, hx]
    · simp [free, hlt]

/-- invalid_free_noop applied to a fresh manager and a null address. -/
theorem invalid_free_noop_witness :
    free (mkMM 2 Strategy.best) none = mkMM 2 Strategy.best :=
  invalid_free_noop (mkMM 2 Strategy.best) none (Or.inl rfl)

/-- findRegionIdx returns none when no element satisfies the
predicate. -/
theorem findRegionIdx_eq_none (p : Region → Bool) (l : List Region)
    (h : ∀ r ∈ l, p r = false) : findRegionIdx p l = none := by
  induction l with
  | nil => rfl
  | cons r rest ih =>
      have hr := h r (by simp)
      simp [findRegionIdx, hr]
      exact ih (fun q hq => h q (by simp [hq]))

/-- C10: when an address is present in the allocation table but no
occupied region starts at its word offset, free returns normally and
leaves the whole state unchanged; in particular the table entry is
retained, not erased. -/
theorem stale_index_entry_free_noop (s : MMState) (x v : Nat)
    (hmem : List.lookup x s.allocation_table = some v)
    (hno : ∀ r ∈ s.memory_regions, ¬(r.position = x / s.unit_size ∧ r.available = false)) :
    free s (some x) = s := by
  have hnone : findRegionIdx
      (fun r => r.position == x / s.unit_size && !r.available) s.memory_regions = none := by
    apply findRegionIdx_eq_none
    intro r hr
    have hnr := hno r hr
    rw [Bool.eq_false_iff]
    intro hcontra
    simp only [Bool.and_eq_true, beq_iff_eq, Bool.not_eq_true'] at hcontra
    exact hnr hcontra
  by_cases hlt : x < s.total_capacity * s.unit_size
  · simp [free, hlt, hmem, hnone]
  · simp [free, hlt]

/-- mergeSweep preserves the total extent: the cursor extent plus the
remaining extents. -/
theorem mergeSweep_sum (l : List Region) : ∀ (cur : Region),
    sumExtents (mergeSweep cur l) = cur.extent + sumExtents l := by
  induction l with
  | nil => intro cur; simp [mergeSweep, sumExtents]
  | cons q rest ih =>
      intro cur
      rw [mergeSweep]
      by_cases h : cur.available && q.available
      · rw [if_pos h, ih]
        show cur.extent + q.extent + sumExtents rest = cur.extent + (q.extent + sumExtents rest)
        omega
      · rw [if_neg h]
        show cur.extent + sumExtents (mergeSweep q rest) = cur.extent + (q.extent + sumExtents rest)
        rw [ih]

/-- merge_adjacent_regions preserves the total extent. -/
theorem merge_sum (l : List Region) :
    sumExtents (merge_adjacent_regions l) = sumExtents l := by
  cases l with
  | nil => rfl
  | cons r rest =>
      rw [merge_adjacent_regions, mergeSweep_sum]
      rfl

/-- sumExtents distributes over append. -/
theorem sum_append (l l2 : List Region) :
    sumExtents (l ++ l2) = sumExtents l + sumExtents l2 := by
  induction l with
  | nil =>
      show sumExtents l2 = 0 + sumExtents l2
      omega
  | cons r rest ih =>
      show r.extent + sumExtents (rest ++ l2) = r.extent + sumExtents rest + sumExtents l2
      omega

/-- get? returning some implies the index is in range. -/
theorem get?_some_lt : ∀ (l : List Region) (i : Nat) (r : Region),
    l.get? i = some r → i < l.length := by
  intro l
  induction l with
  | nil => intro i r h; simp [List.get?] at h
  | cons x xs ih =>
      intro i r h
      cases i with
      | zero => simp
      | succ j =>
          have := ih j r h
          simp only [List.length_cons]
          omega

/-- modifyAt below the length of the left part commutes with append. -/
theorem modifyAt_append (f : Region → Region) : ∀ (i : Nat) (l l2 : List Region),
    i < l.length → modifyAt f i (l ++ l2) = modifyAt f i l ++ l2 := by
  intro i
  induction i with
  | zero =>
      intro l l2 h
      cases l with
      | nil => simp at h
      | cons x xs => rfl
  | succ j ih =>
      intro l l2 h
      cases l with
      | nil => simp at h
      | cons x xs =>
          have h2 : j < xs.length := by simp at h; omega
          simp only [List.cons_append, modifyAt]
          exact congrArg (List.cons x) (ih xs l2 h2)

/-- sumExtents after modifyAt, expressed without truncated subtraction:
the old extent on the left balances the new extent on the right. -/
theorem sum_modifyAt (f : Region → Region) : ∀ (i : Nat) (l : List Region) (r : Region),
    l.get? i = some r →
    sumExtents (modifyAt f i l) + r.extent = sumExtents l + (f r).extent := by
  intro i
  induction i with
  | zero =>
      intro l r h
      cases l with
      | nil => simp [List.get?] at h
      | cons x xs =>
          simp only [List.get?] at h
          injection h with h
          subst h
          simp [modifyAt, sumExtents]
          omega
  | succ j ih =>
      intro l r h
      cases l with
      | nil => simp [List.get?] at h
      | cons x xs =>
          simp only [List.get?] at h
          have := ih xs r h
          simp [modifyAt, sumExtents]
          omega

/-- findRegionIdx returning an index yields an element there satisfying
the predicate. -/
theorem findRegionIdx_get (p : Region → Bool) : ∀ (l : List Region) (i : Nat),
    findRegionIdx p l = some i → ∃ r, l.get? i = some r ∧ p r = true := by
  intro l
  induction l with
  | nil => intro i h; simp [findRegionIdx] at h
  | cons x xs ih =>
      intro i h
      rw [findRegionIdx] at h
      by_cases hx : p x
      · rw [if_pos hx] at h
        injection h with h
        subst h
        exact ⟨x, rfl, hx⟩
      · rw [if_neg hx] at h
        cases hf : findRegionIdx p xs with
        | none => rw [hf] at h; simp at h
        | some j =>
            rw [hf] at h
            simp only [Option.map] at h
            injection h with h
            obtain ⟨r, hr, hp⟩ := ih j hf
            subst h
            exact ⟨r, hr, hp⟩

/-- findRegion returning an index and region means the region sits at
that index and satisfies the predicate. -/
theorem findRegion_get (p : Region → Bool) : ∀ (l : List Region) (i : Nat) (r : Region),
    findRegion p l = some (i, r) → l.get? i = some r ∧ p r = true := by
  intro l
  induction l with
  | nil => intro i r h; simp [findRegion] at h
  | cons x xs ih =>
      intro i r h
      rw [findRegion] at h
      by_cases hx : p x
      · rw [if_pos hx] at h
        injection h with h
        injection h with h1 h2
        subst h1
        subst h2
        exact ⟨rfl, hx⟩
      · rw [if_neg hx] at h
        cases hf : findRegion p xs with
        | none => rw [hf] at h; simp at h
        | some jr =>
            rw [hf] at h
            simp only [Option.map] at h
            injection h with h
            obtain ⟨hr, hp⟩ := ih jr.1 jr.2 (by rw [hf])
            have h1 : i = jr.1 + 1 := by
              have := congrArg Prod.fst h
              simpa using this.symm
            have h2 : r = jr.2 := by
              have := congrArg Prod.snd h
              simpa using this.symm
            subst h1
            subst h2
            exact ⟨hr, hp⟩

/-- allocate preserves the total extent and the capacity. -/
theorem allocate_preserves (s : MMState) (b : Nat) :
    sumExtents (allocate s b).1.memory_regions = sumExtents s.memory_regions
    ∧ (allocate s b).1.total_capacity = s.total_capacity := by
  rw [allocate]
  by_cases hlive : s.arenaLive = false
  · simp [hlive]
  · rw [if_neg hlive]
    by_cases hch : applyStrategy s.strategy (convert_to_words s.unit_size b) (getList s) = -1
    · simp [hch]
    · rw [if_neg hch]
      cases hfind : findRegion
          (fun r => r.available
            && r.position == (applyStrategy s.strategy (convert_to_words s.unit_size b) (getList s)).toNat)
          s.memory_regions with
      | none => simp
      | some ir =>
          obtain ⟨i, r⟩ := ir
          obtain ⟨hget, _⟩ := findRegion_get _ _ _ _ hfind
          refine ⟨?_, rfl⟩
          have h2 := sum_modifyAt
            (fun q => { position := q.position,
                        extent := if convert_to_words s.unit_size b < r.extent
                          then convert_to_words s.unit_size b else q.extent,
                        available := false }) i s.memory_regions r hget
          by_cases hsp : convert_to_words s.unit_size b < r.extent
          · simp only [if_pos hsp] at h2 ⊢
            have hlt := get?_some_lt s.memory_regions i r hget
            rw [modifyAt_append _ _ _ _ hlt, sum_append]
            simp only [sumExtents] at h2 ⊢
            omega
          · simp only [if_neg hsp] at h2 ⊢
            omega

/-- free preserves the total extent and the capacity. -/
theorem free_preserves (s : MMState) (a : Option Nat) :
    sumExtents (free s a).memory_regions = sumExtents s.memory_regions
    ∧ (free s a).total_capacity = s.total_capacity := by
  cases a with
  | none => exact ⟨rfl, rfl⟩
  | some x =>
      rw [free]
      split
      · split
        · exact ⟨rfl, rfl⟩
        · dsimp only []
          split
          · exact ⟨rfl, rfl⟩
          · rename_i i hidx
            refine ⟨?_, rfl⟩
            obtain ⟨r, hget, _⟩ := findRegionIdx_get _ _ _ hidx
            rw [merge_sum]
            have h2 := sum_modifyAt
              (fun q => { position := q.position, extent := q.extent, available := true })
              i s.memory_regions r hget
            dsimp only [] at h2
            omega
      · exact ⟨rfl, rfl⟩

/-- step preserves the coverage invariant. -/
theorem step_preserves (s : MMState) (op : Op)
    (h : sumExtents s.memory_regions = s.total_capacity) :
    sumExtents (step s op).memory_regions = (step s op).total_capacity := by
  cases op with
  | init n => simp [step, initMem, sumExtents]
  | alloc b =>
      have := allocate_preserves s b
      simp only [step]
      omega
  | freeAt a =>
      have := free_preserves s a
      simp only [step]
      omega
  | setAlloc st => simpa [step, setAllocator] using h

/-- run preserves the coverage invariant. -/
theorem run_preserves : ∀ (ops : List Op) (s : MMState),
    sumExtents s.memory_regions = s.total_capacity →
    sumExtents (run s ops).memory_regions = (run s ops).total_capacity := by
  intro ops
  induction ops with
  | nil => intro s h; exact h
  | cons op rest ih =>
      intro s h
      exact ih (step s op) (step_preserves s op h)

/-- C4: in every state reachable from any initialize call by any
sequence of initialize, allocate, free and setAllocator calls, the sum
of all region extents equals the configured word capacity; allocate
(split included), free (merge included) and setAllocator all preserve
this sum, and initialize re-establishes it at the new capacity. -/
theorem sum_extents_eq_capacity (s : MMState) (n : Nat) (ops : List Op) :
    sumExtents (run (initMem s n) ops).memory_regions
      = (run (initMem s n) ops).total_capacity := by
  apply run_preserves
  simp [initMem, sumExtents]

/-- pickMinWaste keeps the first hole of minimal waste: it returns a
candidate among the accumulator and the scanned holes, with minimal
waste over all of them, and with the least position among the ties when
the positions ascend. -/
theorem pickMinWaste_spec (w : Nat) : ∀ (t : List (Nat × Nat)) (acc : Nat × Nat),
    (∀ x ∈ t, acc.1 < x.1) → List.Pairwise (fun a b => a.1 < b.1) t →
    (pickMinWaste w acc t = acc ∨ pickMinWaste w acc t ∈ t)
      ∧ (∀ x ∈ acc :: t, (pickMinWaste w acc t).2 - w ≤ x.2 - w)
      ∧ (∀ x ∈ acc :: t, x.2 - w = (pickMinWaste w acc t).2 - w → (pickMinWaste w acc t).1 ≤ x.1) := by
  intro t
  induction t with
  | nil =>
      intro acc _ _
      refine ⟨Or.inl rfl, ?_, ?_⟩
      · intro x hx
        rcases List.mem_cons.mp hx with rfl | hx2
        · exact Nat.le_refl _
        · cases hx2
      · intro x hx _
        rcases List.mem_cons.mp hx with rfl | hx2
        · exact Nat.le_refl _
        · cases hx2
  | cons c t ih =>
      intro acc hacc hp
      rw [List.pairwise_cons] at hp
      obtain ⟨hpc, hpt⟩ := hp
      by_cases h : c.2 - w < acc.2 - w
      · have hstep : pickMinWaste w acc (c :: t) = pickMinWaste w c t := by
          simp only [pickMinWaste, List.foldl_cons, if_pos h]
        obtain ⟨m1, m2, m3⟩ := ih c hpc hpt
        rw [hstep]
        refine ⟨?_, ?_, ?_⟩
        · rcases m1 with h1 | h1
          · exact Or.inr (by rw [h1]; exact List.mem_cons_self c t)
          · exact Or.inr (List.mem_cons_of_mem c h1)
        · intro x hx
          have hrc := m2 c (List.mem_cons_self c t)
          rcases List.mem_cons.mp hx with rfl | hx2
          · omega
          · rcases List.mem_cons.mp hx2 with rfl | hx3
            · exact hrc
            · exact m2 x (List.mem_cons_of_mem c hx3)
        · intro x hx htie
          have hrc := m2 c (List.mem_cons_self c t)
          rcases List.mem_cons.mp hx with rfl | hx2
          · omega
          · rcases List.mem_cons.mp hx2 with rfl | hx3
            · exact m3 x (List.mem_cons_self x t) htie
            · exact m3 x (List.mem_cons_of_mem c hx3) htie
      · have hstep : pickMinWaste w acc (c :: t) = pickMinWaste w acc t := by
          simp only [pickMinWaste, List.foldl_cons, if_neg h]
        have hacct : ∀ x ∈ t, acc.1 < x.1 :=
          fun x hx => hacc x (List.mem_cons_of_mem c hx)
        obtain ⟨m1, m2, m3⟩ := ih acc hacct hpt
        rw [hstep]
        refine ⟨?_, ?_, ?_⟩
        · rcases m1 with h1 | h1
          · exact Or.inl h1
          · exact Or.inr (List.mem_cons_of_mem c h1)
        · intro x hx
          have hra := m2 acc (List.mem_cons_self acc t)
          rcases List.mem_cons.mp hx with rfl | hx2
          · exact hra
          · rcases List.mem_cons.mp hx2 with rfl | hx3
            · omega
            · exact m2 x (List.mem_cons_of_mem acc hx3)
        · intro x hx htie
          have hra := m2 acc (List.mem_cons_self acc t)
          rcases List.mem_cons.mp hx with rfl | hx2
          · exact m3 x (List.mem_cons_self x t) htie
          · rcases List.mem_cons.mp hx2 with rfl | hx3
            · have hxa : acc.2 - w = (pickMinWaste w acc t).2 - w := by omega
              have hracc := m3 acc (List.mem_cons_self acc t) hxa
              have := hacc x (List.mem_cons_self x t)
              omega
            · exact m3 x (List.mem_cons_of_mem acc hx3) htie

/-- C6: on a snapshot of free holes sorted by strictly ascending
position, bestFit answers -1 exactly when no hole can contain the
request; otherwise it answers the position of a qualifying hole whose
waste (extent minus request) is minimal, and which has the least
position among the holes tying on minimal waste. On holes of sizes 10,
4 and 7 and a request of 5 words it picks the size-7 hole. -/
theorem bestFit_selects_min_waste (w : Nat) (holes : List (Nat × Nat)) (hw : 0 < w)
    (hsort : List.Pairwise (fun a b => a.1 < b.1) holes) :
    ((bestFit w holes = -1) ↔ ∀ h ∈ holes, h.2 < w)
    ∧ (∀ h ∈ holes, w ≤ h.2 →
        ∃ b ∈ holes, w ≤ b.2 ∧ bestFit w holes = Int.ofNat b.1
          ∧ (∀ y ∈ holes, w ≤ y.2 → b.2 - w ≤ y.2 - w)
          ∧ (∀ y ∈ holes, w ≤ y.2 → y.2 - w = b.2 - w → b.1 ≤ y.1))
    ∧ bestFit 5 [(0, 10), (20, 4), (40, 7)] = 40 := by
  refine ⟨?_, ?_, by decide⟩
  · cases hq : holes.filter (fun h => w ≤ h.2) with
    | nil =>
        have hall : ∀ h ∈ holes, ¬ w ≤ h.2 := by
          intro h hh
          have := List.filter_eq_nil_iff.mp hq h hh
          simpa using this
        constructor
        · intro _ h hh
          have := hall h hh
          omega
        · intro _
          simp [bestFit, hq]
    | cons h0 t0 =>
        have hbf : bestFit w holes = Int.ofNat (pickMinWaste w h0 t0).1 := by
          simp [bestFit, hq]
        constructor
        · intro hcontra
          exfalso
          rw [hbf, Int.ofNat_eq_coe] at hcontra
          omega
        · intro hall
          have hmem : h0 ∈ holes.filter (fun h => w ≤ h.2) := by
            rw [hq]; exact List.mem_cons_self h0 t0
          have := List.mem_filter.mp hmem
          have hlt := hall h0 this.1
          have : w ≤ h0.2 := by simpa using this.2
          omega
  · intro h hh hwh
    cases hq : holes.filter (fun h => w ≤ h.2) with
    | nil =>
        exact absurd hwh (by simpa using List.filter_eq_nil_iff.mp hq h hh)
    | cons h0 t0 =>
        have hbf : bestFit w holes = Int.ofNat (pickMinWaste w h0 t0).1 := by
          simp [bestFit, hq]
        have hpf : List.Pairwise (fun a b => a.1 < b.1) (h0 :: t0) := by
          rw [← hq]
          exact hsort.filter _
        rw [List.pairwise_cons] at hpf
        obtain ⟨m1, m2, m3⟩ := pickMinWaste_spec w t0 h0 hpf.1 hpf.2
        have hrmem : pickMinWaste w h0 t0 ∈ h0 :: t0 := by
          rcases m1 with h1 | h1
          · rw [h1]; exact List.mem_cons_self h0 t0
          · exact List.mem_cons_of_mem h0 h1
        have hrfil : pickMinWaste w h0 t0 ∈ holes.filter (fun h => w ≤ h.2) := by
          rw [hq]; exact hrmem
        have hrholes := List.mem_filter.mp hrfil
        refine ⟨pickMinWaste w h0 t0, hrholes.1, by simpa using hrholes.2, hbf, ?_, ?_⟩
        · intro y hy hwy
          have hymem : y ∈ h0 :: t0 := by
            rw [← hq]
            exact List.mem_filter.mpr ⟨hy, by simpa⟩
          exact m2 y hymem
        · intro y hy hwy htie
          have hymem : y ∈ h0 :: t0 := by
            rw [← hq]
            exact List.mem_filter.mpr ⟨hy, by simpa⟩
          exact m3 y hymem htie

/-- bestFit_selects_min_waste applied to the snapshot with holes of
sizes 10, 4 and 7 and a request of 5 words. -/
theorem bestFit_selects_min_waste_witness :
    bestFit 5 [(0, 10), (20, 4), (40, 7)] = 40 :=
  (bestFit_selects_min_waste 5 [(0, 10), (20, 4), (40, 7)] (by decide) (by decide)).2.2

/-- pickMaxGap keeps the first hole of maximal qualifying extent: it
returns the accumulator or a qualifying hole, never decreases the
tracked gap, dominates every qualifying extent, replaces the
accumulator only strictly, and among ties keeps the least position when
the positions ascend. -/
theorem pickMaxGap_spec (w : Nat) : ∀ (t : List (Nat × Nat)) (acc : Int × Nat),
    (∀ x ∈ t, acc.1 < Int.ofNat x.1) → List.Pairwise (fun a b => a.1 < b.1) t →
    (pickMaxGap w acc t = acc ∨ ∃ c ∈ t, pickMaxGap w acc t = (Int.ofNat c.1, c.2) ∧ w ≤ c.2)
      ∧ acc.2 ≤ (pickMaxGap w acc t).2
      ∧ (∀ y ∈ t, w ≤ y.2 → y.2 ≤ (pickMaxGap w acc t).2)
      ∧ (pickMaxGap w acc t = acc ∨ acc.2 < (pickMaxGap w acc t).2)
      ∧ (∀ y ∈ t, w ≤ y.2 → y.2 = (pickMaxGap w acc t).2 →
          (pickMaxGap w acc t).1 ≤ Int.ofNat y.1) := by
  intro t
  induction t with
  | nil =>
      intro acc _ _
      refine ⟨Or.inl rfl, Nat.le_refl _, ?_, Or.inl rfl, ?_⟩
      · intro y hy; cases hy
      · intro y hy; cases hy
  | cons c t ih =>
      intro acc hacc hp
      rw [List.pairwise_cons] at hp
      obtain ⟨hpc, hpt⟩ := hp
      by_cases h : w ≤ c.2 ∧ acc.2 < c.2
      · have hstep : pickMaxGap w acc (c :: t) = pickMaxGap w (Int.ofNat c.1, c.2) t := by
          simp only [pickMaxGap, List.foldl_cons, if_pos h]
        have hacc2 : ∀ x ∈ t, (Int.ofNat c.1, c.2).1 < Int.ofNat x.1 := by
          intro x hx
          have := hpc x hx
          simp only [Int.ofNat_eq_coe]
          omega
        obtain ⟨m1, m2, m3, m4, m5⟩ := ih (Int.ofNat c.1, c.2) hacc2 hpt
        rw [hstep]
        refine ⟨?_, ?_, ?_, ?_, ?_⟩
        · rcases m1 with h1 | ⟨d, hd1, hd2, hd3⟩
          · exact Or.inr ⟨c, List.mem_cons_self c t, h1, h.1⟩
          · exact Or.inr ⟨d, List.mem_cons_of_mem c hd1, hd2, hd3⟩
        · have : ((Int.ofNat c.1, c.2) : Int × Nat).2 ≤ (pickMaxGap w (Int.ofNat c.1, c.2) t).2 := m2
          dsimp only [] at this
          omega
        · intro y hy hwy
          have hm2 : ((Int.ofNat c.1, c.2) : Int × Nat).2 ≤ (pickMaxGap w (Int.ofNat c.1, c.2) t).2 := m2
          dsimp only [] at hm2
          rcases List.mem_cons.mp hy with rfl | hy2
          · omega
          · exact m3 y hy2 hwy
        · have hm2 : ((Int.ofNat c.1, c.2) : Int × Nat).2 ≤ (pickMaxGap w (Int.ofNat c.1, c.2) t).2 := m2
          dsimp only [] at hm2
          exact Or.inr (by omega)
        · intro y hy hwy htie
          rcases List.mem_cons.mp hy with rfl | hy2
          · rcases m4 with h4 | h4
            · rw [h4]
            · exfalso
              dsimp only [] at h4
              omega
          · exact m5 y hy2 hwy htie
      · have hstep : pickMaxGap w acc (c :: t) = pickMaxGap w acc t := by
          simp only [pickMaxGap, List.foldl_cons, if_neg h]
        have hacct : ∀ x ∈ t, acc.1 < Int.ofNat x.1 :=
          fun x hx => hacc x (List.mem_cons_of_mem c hx)
        obtain ⟨m1, m2, m3, m4, m5⟩ := ih acc hacct hpt
        rw [hstep]
        refine ⟨?_, m2, ?_, m4, ?_⟩
        · rcases m1 with h1 | ⟨d, hd1, hd2, hd3⟩
          · exact Or.inl h1
          · exact Or.inr ⟨d, List.mem_cons_of_mem c hd1, hd2, hd3⟩
        · intro y hy hwy
          rcases List.mem_cons.mp hy with rfl | hy2
          · have hyacc : y.2 ≤ acc.2 := by
              by_contra hcon
              exact h ⟨hwy, by omega⟩
            omega
          · exact m3 y hy2 hwy
        · intro y hy hwy htie
          rcases List.mem_cons.mp hy with rfl | hy2
          · have hyacc : y.2 ≤ acc.2 := by
              by_contra hcon
              exact h ⟨hwy, by omega⟩
            rcases m4 with h4 | h4
            · rw [h4]
              have := hacc y (List.mem_cons_self y t)
              omega
            · exfalso
              omega
          · exact m5 y hy2 hwy htie

/-- C7: on a snapshot of free holes sorted by strictly ascending
position, worstFit answers -1 exactly when no hole can contain the
request; otherwise it answers the position of a qualifying hole of
maximal extent, and since a later hole of equal extent never replaces
the current winner under the strict comparison, that hole has the least
position among the maximal ones. On holes of sizes 10, 4 and 7 and a
request of 5 words it picks the size-10 hole. -/
theorem worstFit_selects_max_extent (w : Nat) (holes : List (Nat × Nat)) (hw : 0 < w)
    (hsort : List.Pairwise (fun a b => a.1 < b.1) holes) :
    ((worstFit w holes = -1) ↔ ∀ h ∈ holes, h.2 < w)
    ∧ (∀ h ∈ holes, w ≤ h.2 →
        ∃ b ∈ holes, w ≤ b.2 ∧ worstFit w holes = Int.ofNat b.1
          ∧ (∀ y ∈ holes, w ≤ y.2 → y.2 ≤ b.2)
          ∧ (∀ y ∈ holes, w ≤ y.2 → y.2 = b.2 → b.1 ≤ y.1))
    ∧ worstFit 5 [(0, 10), (20, 4), (40, 7)] = 0 := by
  have hacc : ∀ x ∈ holes, ((-1 : Int), (0 : Nat)).1 < Int.ofNat x.1 := by
    intro x hx
    show (-1 : Int) < Int.ofNat x.1
    rw [Int.ofNat_eq_coe]
    omega
  obtain ⟨m1, m2, m3, m4, m5⟩ := pickMaxGap_spec w holes ((-1 : Int), 0) hacc hsort
  have hwf : worstFit w holes = (pickMaxGap w ((-1 : Int), 0) holes).1 := rfl
  refine ⟨⟨?_, ?_⟩, ?_, by decide⟩
  · intro hneg h hh
    by_contra hc
    have hwh : w ≤ h.2 := by omega
    rcases m1 with he | ⟨c, hc1, hc2, hc3⟩
    · have hr2 : (pickMaxGap w ((-1 : Int), 0) holes).2 = 0 := by rw [he]
      have := m3 h hh hwh
      omega
    · have hr1 : (pickMaxGap w ((-1 : Int), 0) holes).1 = Int.ofNat c.1 := by rw [hc2]
      rw [hwf, hr1, Int.ofNat_eq_coe] at hneg
      omega
  · intro hall
    rcases m1 with he | ⟨c, hcmem, hceq, hcw⟩
    · rw [hwf, he]
    · exfalso
      have := hall c hcmem
      omega
  · intro h hh hwh
    rcases m1 with he | ⟨c, hcmem, hceq, hcw⟩
    · exfalso
      have hr2 : (pickMaxGap w ((-1 : Int), 0) holes).2 = 0 := by rw [he]
      have := m3 h hh hwh
      omega
    · have hr1 : (pickMaxGap w ((-1 : Int), 0) holes).1 = Int.ofNat c.1 := by rw [hceq]
      have hr2 : (pickMaxGap w ((-1 : Int), 0) holes).2 = c.2 := by rw [hceq]
      refine ⟨c, hcmem, hcw, by rw [hwf, hr1], ?_, ?_⟩
      · intro y hy hwy
        have := m3 y hy hwy
        omega
      · intro y hy hwy htie
        have h5 := m5 y hy hwy (by omega)
        rw [hr1, Int.ofNat_eq_coe, Int.ofNat_eq_coe] at h5
        omega

/-- worstFit_selects_max_extent applied to the snapshot with holes of
sizes 10, 4 and 7 and a request of 5 words. -/
theorem worstFit_selects_max_extent_witness :
    worstFit 5 [(0, 10), (20, 4), (40, 7)] = 0 :=
  (worstFit_selects_max_extent 5 [(0, 10), (20, 4), (40, 7)] (by decide) (by decide)).2.2

/-- applyStrategy on a single-hole snapshot answers the hole position
when the hole is large enough and -1 otherwise, for both strategies. -/
theorem applyStrategy_single (st : Strategy) (w a b : Nat) (hw : 0 < w) :
    applyStrategy st w [(a, b)] = if w ≤ b then Int.ofNat a else -1 := by
  cases st with
  | best =>
      by_cases h : w ≤ b
      · simp [applyStrategy, bestFit, h, pickMinWaste]
      · simp [applyStrategy, bestFit, h]
  | worst =>
      by_cases h : w ≤ b
      · have hb : 0 < b := by omega
        simp [applyStrategy, worstFit, pickMaxGap, h, hb]
      · simp [applyStrategy, worstFit, pickMaxGap, h]

/-- C5 counterexample: the round-trip claim fails on a reachable state
with no allocations outstanding. Running dupAddressOps from a fresh
word-size-1 manager reaches the state with regions
(0,6,free)(2,1,occupied) and an empty allocation table; there
allocate(1) succeeds returning address 0, yet freeing that address
leaves the free-region list [(0,1),(1,5)] instead of the
pre-allocation [(0,6)]: the split remainder sits at the end of the
deque, separated from the freed region by the stale occupied region,
so the merge sweep cannot rejoin them. -/
theorem roundtrip_fails_on_reachable_state :
    (run (mkMM 1 Strategy.best) dupAddressOps).allocation_table = []
    ∧ (run (mkMM 1 Strategy.best) dupAddressOps).memory_regions
      = [⟨0, 6, true⟩, ⟨2, 1, false⟩]
    ∧ getList (run (mkMM 1 Strategy.best) dupAddressOps) = [(0, 6)]
    ∧ (allocate (run (mkMM 1 Strategy.best) dupAddressOps) 1).2 = some 0
    ∧ getList (free (allocate (run (mkMM 1 Strategy.best) dupAddressOps) 1).1 (some 0))
      = [(0, 1), (1, 5)]
    ∧ getList (free (allocate (run (mkMM 1 Strategy.best) dupAddressOps) 1).1 (some 0))
      ≠ getList (run (mkMM 1 Strategy.best) dupAddressOps) := by
  refine ⟨rfl, rfl, rfl, rfl, rfl, ?_⟩
  decide

/-- C5 as amended: for a manager whose ledger is a single free region
with an empty allocation table — the pre-allocation shape produced by
initialize, though, as the counterexample shows, not the shape of
every reachable state with an empty table — any allocation of a
positive byte count that succeeds is undone exactly by freeing the
returned address: the state, and with it the free-region list, returns
to its pre-allocation shape. -/
theorem alloc_free_roundtrip (ws cap e n : Nat) (st : Strategy) (s2 : MMState) (a : Nat)
    (hws : 0 < ws) (hn : 0 < n) (hecap : e ≤ cap)
    (halloc : allocate
        { unit_size := ws, strategy := st, arenaLive := true, total_capacity := cap,
          memory_regions := [{ position := 0, extent := e, available := true }],
          allocation_table := [] } n = (s2, some a)) :
    free s2 (some a)
      = { unit_size := ws, strategy := st, arenaLive := true, total_capacity := cap,
          memory_regions := [{ position := 0, extent := e, available := true }],
          allocation_table := [] }
    ∧ getList (free s2 (some a))
      = getList
          ({ unit_size := ws, strategy := st, arenaLive := true, total_capacity := cap,
             memory_regions := [{ position := 0, extent := e, available := true }],
             allocation_table := [] } : MMState) := by
  have hw1 : 1 ≤ convert_to_words ws n := by
    have h := (words_positive_iff_bytes_positive ws n hws hn).1
    exact h
  have hgl : getList
      { unit_size := ws, strategy := st, arenaLive := true, total_capacity := cap,
        memory_regions := [{ position := 0, extent := e, available := true }],
        allocation_table := ([] : List (Nat × Nat)) } = [(0, e % 65536)] := by
    simp [getList, freePairs, sortPairs, insertPairLe]
  rw [allocate] at halloc
  rw [if_neg (by decide : ¬ (true = false))] at halloc
  simp only [hgl] at halloc
  rw [applyStrategy_single st (convert_to_words ws n) 0 (e % 65536) hw1] at halloc
  by_cases hfit : convert_to_words ws n ≤ e % 65536
  · rw [if_pos hfit] at halloc
    have hwle : convert_to_words ws n ≤ e :=
      Nat.le_trans hfit (Nat.mod_le e 65536)
    have he1 : 1 ≤ e := Nat.le_trans hw1 hwle
    have hcappos : 0 < cap * ws := Nat.mul_pos (by omega) hws
    rw [if_neg (by decide : ¬ (Int.ofNat 0 = -1))] at halloc
    have hfr : findRegion
        (fun r => r.available && r.position == (Int.ofNat 0).toNat)
        [{ position := 0, extent := e, available := true }]
        = some (0, { position := 0, extent := e, available := true }) := rfl
    simp only [hfr] at halloc
    by_cases hsplit : convert_to_words ws n < e
    · simp only [if_pos hsplit, modifyAt, tableInsert, Int.toNat, Nat.zero_mul,
        Nat.zero_add, List.cons_append, List.nil_append, List.append_eq,
        Prod.mk.injEq, Option.some.injEq] at halloc
      obtain ⟨hs2, ha⟩ := halloc
      subst ha
      rw [← hs2]
      have hmain : free
          { unit_size := ws, strategy := st, arenaLive := true, total_capacity := cap,
            memory_regions :=
              [{ position := 0, extent := convert_to_words ws n, available := false },
               { position := convert_to_words ws n, extent := e - convert_to_words ws n,
                 available := true }],
            allocation_table := [(0, n)] } (some 0)
          = { unit_size := ws, strategy := st, arenaLive := true, total_capacity := cap,
              memory_regions := [{ position := 0, extent := e, available := true }],
              allocation_table := [] } := by
        simp [free, hcappos, List.lookup, findRegionIdx, modifyAt,
          merge_adjacent_regions, mergeSweep, tableErase, Nat.zero_div,
          Nat.add_sub_cancel' hwle]
      exact ⟨hmain, by rw [hmain]⟩
    · simp only [if_neg hsplit, modifyAt, tableInsert, Int.toNat, Nat.zero_mul,
        Nat.zero_add, Prod.mk.injEq, Option.some.injEq] at halloc
      obtain ⟨hs2, ha⟩ := halloc
      subst ha
      rw [← hs2]
      have hmain : free
          { unit_size := ws, strategy := st, arenaLive := true, total_capacity := cap,
            memory_regions := [{ position := 0, extent := e, available := false }],
            allocation_table := [(0, n)] } (some 0)
          = { unit_size := ws, strategy := st, arenaLive := true, total_capacity := cap,
              memory_regions := [{ position := 0, extent := e, available := true }],
              allocation_table := [] } := by
        simp [free, hcappos, List.lookup, findRegionIdx, modifyAt,
          merge_adjacent_regions, mergeSweep, tableErase, Nat.zero_div]
      exact ⟨hmain, by rw [hmain]⟩
  · rw [if_neg hfit] at halloc
    simp at halloc

/-- alloc_free_roundtrip applied to a manager with word size 1, three
words of capacity, one all-free region and a one-byte allocation. -/
theorem alloc_free_roundtrip_witness :
    free { unit_size := 1, strategy := Strategy.best, arenaLive := true, total_capacity := 3,
           memory_regions :=
             [{ position := 0, extent := 1, available := false },
              { position := 1, extent := 2, available := true }],
           allocation_table := [(0, 1)] } (some 0)
      = { unit_size := 1, strategy := Strategy.best, arenaLive := true, total_capacity := 3,
          memory_regions := [{ position := 0, extent := 3, available := true }],
          allocation_table := [] }
    ∧ getList
        (free
          ({ unit_size := 1, strategy := Strategy.best, arenaLive := true,
             total_capacity := 3,
             memory_regions :=
               [{ position := 0, extent := 1, available := false },
                { position := 1, extent := 2, available := true }],
             allocation_table := [(0, 1)] } : MMState) (some 0))
      = getList
          ({ unit_size := 1, strategy := Strategy.best, arenaLive := true,
             total_capacity := 3,
             memory_regions := [{ position := 0, extent := 3, available := true }],
             allocation_table := [] } : MMState) :=
  alloc_free_roundtrip 1 3 3 1 Strategy.best _ 0 (by decide) (by decide) (by decide) (by decide)

/-- stale_index_entry_free_noop applied to a manager whose table tracks
byte offset 0 while the only region at word offset 0 is free. -/
theorem stale_index_entry_free_noop_witness :
    free { unit_size := 1, strategy := Strategy.best, arenaLive := true,
           total_capacity := 4,
           memory_regions := [⟨0, 4, true⟩],
           allocation_table := [(0, 5)] } (some 0)
      = { unit_size := 1, strategy := Strategy.best, arenaLive := true,
          total_capacity := 4,
          memory_regions := [⟨0, 4, true⟩],
          allocation_table := [(0, 5)] } :=
  stale_index_entry_free_noop _ 0 5 (by decide) (by decide)

end MemSim
